import Mathlib

/-!
Verification of the mcx image-classification application (Python sources:
classification.py, ml.py, theme_manager.py) against its natural-language
specification.  The Python code is shallowly embedded: pure computations
become Lean functions, the threaded run loop of ClassificationThread becomes
an explicit event-trace semantics with a check counter modelling the points
where the cooperative cancellation flag is polled, and fallible operations
return Except/Option values.
-/

set_option maxHeartbeats 1000000
set_option maxRecDepth 10000

namespace Mcx

/-! ## Python substring containment

Models the Python expression needle in hay on strings: true iff needle
occurs as a contiguous substring of hay (the empty string is contained in
everything, as in Python). -/


/-- List-level substring occurrence: needle occurs contiguously in hay. -/
def subOccurs (needle : List Char) : List Char → Bool
  | [] => needle.isEmpty
  | c :: rest => List.isPrefixOf needle (c :: rest) || subOccurs needle rest

/-- Python needle in hay substring test. -/
def pyIn (needle hay : String) : Bool :=
  subOccurs needle.toList hay.toList

/-! ## load_model_safely (classification.py lines 17-63; identical copy in ml.py 695-725)

The two deserialization attempts are abstracted as Except values supplied by
the environment: first is the outcome of the standard
tf.keras.models.load_model call, retry is the outcome of the call that
supplies the substitute CustomDepthwiseConv2D layer factory.  The returned
Bool records whether the fallback (second) attempt was made. -/


/-- Embeds load_model_safely: try the standard load; on an exception whose
message contains both "DepthwiseConv2D" and "groups", retry with the custom
layer factory; otherwise re-raise the original exception.  The Bool is true
iff the second load attempt was made. -/
def load_model_safely {α : Type} (first retry : Except String α) :
    Except String α × Bool :=
  match first with
  | .ok m => (.ok m, false)
  | .error e =>
    if pyIn "DepthwiseConv2D" e && pyIn "groups" e then
      (retry, true)
    else
      (.error e, false)

/-! ## process_image (classification.py lines 164-197; divergent copy ml.py 810-837)

The PIL image is modelled by its pixel dimensions; resize produces a fresh
image with the requested dimensions.  Image decoding may fail (corrupt
file), so the decoded image arrives as an Except value; the model's
prediction vector for the image is supplied as a list of rationals
(model.predict is outside the embedded fragment).  Saving the image is
modelled by returning a SavedFile record naming the destination path and
the image object written there. -/


/-- A decoded PIL image, modelled by its dimensions. -/
structure PILImage where
  width : Nat
  height : Nat
  deriving DecidableEq, Repr

/-- PIL Image.resize: the result has exactly the requested dimensions. -/
def pyResize (_img : PILImage) (w h : Nat) : PILImage := ⟨w, h⟩

/-- np.argmax on a vector, first index of the maximum (numpy returns the
first occurrence).  Mirrors a left fold keeping the best value seen. -/
def npArgmaxAux : List ℚ → Nat → ℚ → Nat → Nat
  | [], _, _, best => best
  | x :: xs, i, bv, best =>
    if bv < x then npArgmaxAux xs (i + 1) x i else npArgmaxAux xs (i + 1) bv best

/-- np.argmax of a nonempty list; 0 on the empty list (numpy raises there,
and process_image treats that case as an error before this is used). -/
def npArgmax : List ℚ → Nat
  | [] => 0
  | x :: xs => npArgmaxAux xs 1 x 0

/-- Characters after the last separator: the accumulator is reset every
time a '/' is seen, so what remains at the end is the final component. -/
def basenameChars : List Char → List Char → List Char
  | [], acc => acc.reverse
  | '/' :: rest, _ => basenameChars rest []
  | c :: rest, acc => basenameChars rest (c :: acc)

/-- os.path.basename for POSIX-style paths. -/
def pyBasename (p : String) : String :=
  String.mk (basenameChars p.toList [])

/-- os.path.join for a relative second component, POSIX separator. -/
def pyJoin (a b : String) : String := a ++ "/" ++ b

/-- Record of one image file written to disk: destination path and the
image object that was saved there. -/
structure SavedFile where
  path : String
  image : PILImage
  deriving DecidableEq, Repr

/-- Embeds ClassificationThread.process_image of classification.py: decode
(may fail), resize a copy to 224x224 for the input tensor, take the argmax
of the prediction vector, look the class name up in labels (IndexError if
out of range), build output_folder/<predicted_class>/<basename>, and save
the ORIGINAL decoded image img there (the resized copy is only used for
inference).  Returns the saved file together with the returned tuple
(img_path, predicted_class, confidence, output_path). -/
def process_image (output_folder img_path : String) (decoded : Except String PILImage)
    (predictions : List ℚ) (labels : List String) :
    Except String (SavedFile × (String × String × ℚ × String)) :=
  match decoded with
  | .error e => .error e
  | .ok img =>
    let _img_resized := pyResize img 224 224
    match predictions with
    | [] => .error "attempt to get argmax of an empty sequence"
    | _ =>
      let predicted_class_idx := npArgmax predictions
      match labels[predicted_class_idx]? with
      | none => .error "list index out of range"
      | some predicted_class =>
        let confidence := predictions.getD predicted_class_idx 0
        let class_folder := pyJoin output_folder predicted_class
        let filename := pyBasename img_path
        let output_path := pyJoin class_folder filename
        .ok (⟨output_path, img⟩, (img_path, predicted_class, confidence, output_path))

/-- Embeds the divergent ClassificationThread.process_image of ml.py lines
810-837: identical pipeline, but the name img is REBOUND to the resized
224x224 image before saving, so the file written to the class folder is the
resized image, not the original.  ml.py's variant also swallows the
exception (returning None) instead of re-raising, hence the Option result. -/
def process_image_ml (output_folder img_path : String) (decoded : Except String PILImage)
    (predictions : List ℚ) (labels : List String) :
    Option (SavedFile × (String × String × ℚ × String)) :=
  match decoded with
  | .error _ => none
  | .ok img0 =>
    let img := pyResize img0 224 224
    match predictions with
    | [] => none
    | _ =>
      let predicted_class_idx := npArgmax predictions
      match labels[predicted_class_idx]? with
      | none => none
      | some predicted_class =>
        let confidence := predictions.getD predicted_class_idx 0
        let class_folder := pyJoin output_folder predicted_class
        let filename := pyBasename img_path
        let output_path := pyJoin class_folder filename
        some (⟨output_path, img⟩, (img_path, predicted_class, confidence, output_path))

/-! ## Batch partitioning (classification.py run, lines 119-123)

The loop for i in range(0, total_files, batch_size) with
batch_files = image_files[i : i + batch_size] walks the file list in
consecutive slices: each iteration takes the next batch_size files and the
remainder continues with the rest.  batchChunks embeds that walk; the fuel
argument is l.length, which bounds the number of iterations whenever
0 < batch_size (each step consumes at least one element).  batch_size = 0
would make Python's range raise ValueError; theorems assume 0 < batch_size,
matching the spec's "positive integer batch size". -/


/-- One chunking step per unit of fuel: an empty list yields no batch,
otherwise the first batch_size elements form a batch and chunking continues
on the rest. -/
def batchChunksAux {α : Type} (B : Nat) : Nat → List α → List (List α)
  | 0, _ => []
  | _ + 1, [] => []
  | fuel + 1, x :: xs => (x :: xs).take B :: batchChunksAux B fuel ((x :: xs).drop B)

/-- The consecutive batch_size-sized slices of l produced by the batch loop
of ClassificationThread.run. -/
def batchChunks {α : Type} (B : Nat) (l : List α) : List (List α) :=
  batchChunksAux B l.length l

/-! ## ClassificationThread.run (classification.py lines 91-162)

The run method is embedded as a trace semantics producing the list of
emitted Qt signals.  The pieces abstracted as parameters:

* modelLoad / labelsLoad: outcomes of load_model_safely(self.model_path)
  and of reading the label file (the two fatal setup steps inside the try).
* images: the deduplicated discovered file list (the glob walk and
  list(set(...)) of lines 102-109 are filesystem-dependent; the claims
  quantify over the resulting list).
* proc: the outcome of self.process_image for each path; a success carries
  the predicted class and the already-formatted confidence string used by
  result_update.emit(img_path, predicted_class, confidence-string).
* sched: the value read from the cooperative cancellation flag
  self.is_running at its n-th poll; polls happen at the top of each batch
  iteration, once per drained future, and once per replayed batch result,
  in program order, so a single counter threads through the run.  stop()
  only ever sets the flag to False.
* order: the order in which concurrent.futures.as_completed yields the
  batch's futures (a permutation of the submitted batch; theorems that
  need this assume it).

os.makedirs side effects (lines 114-116) have no observable trace and are
omitted.  A batch_size of 0 would make range raise ValueError; theorems
assume the spec's positive batch size. -/


/-- One emitted Qt signal of ClassificationThread. -/
inductive PEvent where
  | progress : Nat → Nat → PEvent
  | result : String → String → String → PEvent
  | error : String → PEvent
  | finished : PEvent
  deriving DecidableEq, Repr

/-- Successful process_image outcome as consumed by the run loop: the
predicted class and the confidence already formatted to two decimals. -/
structure ProcOk where
  cls : String
  conf : String
  deriving DecidableEq, Repr

/-- Error message emitted for one failed image (run line 144). -/
def errLine (path exc : String) : String :=
  "Error processing " ++ pyBasename path ++ ": " ++ exc

/-- Error message emitted on a fatal setup failure (run line 161). -/
def setupErr (e : String) : String :=
  "Error in classification setup: " ++ e

/-- Output of draining one batch's futures (the as_completed loop, lines
131-144): error events emitted, batch_results collected, and the counter
after the polls consumed. -/
structure FutsOut where
  events : List PEvent
  results : List (String × ProcOk)
  counter : Nat
  deriving Repr

/-- Output of the batch-result replay loop (lines 147-155) and of the
whole batch loop: events, counter after polls, processed count. -/
structure LoopOut where
  events : List PEvent
  counter : Nat
  processed : Nat
  deriving Repr

/-- Drain one batch's futures in completion order: each iteration polls
is_running (consuming one counter tick); when the flag is down the
remaining futures are cancelled and the drain stops; otherwise a failure
emits an error event and a success is appended to batch_results. -/
def futsLoop (proc : String → Except String ProcOk) (sched : Nat → Bool) :
    List String → Nat → FutsOut
  | [], c => ⟨[], [], c⟩
  | p :: rest, c =>
    if sched c then
      match proc p with
      | .ok r =>
        let o := futsLoop proc sched rest (c + 1)
        ⟨o.events, (p, r) :: o.results, o.counter⟩
      | .error e =>
        let o := futsLoop proc sched rest (c + 1)
        ⟨PEvent.error (errLine p e) :: o.events, o.results, o.counter⟩
    else ⟨[], [], c + 1⟩

/-- Replay a drained batch's results: each iteration polls is_running,
then emits result_update and progress_update, incrementing the processed
count by one per successful image. -/
def replayLoop (sched : Nat → Bool) (total : Nat) :
    List (String × ProcOk) → Nat → Nat → LoopOut
  | [], c, processed => ⟨[], c, processed⟩
  | (p, r) :: rest, c, processed =>
    if sched c then
      let o := replayLoop sched total rest (c + 1) (processed + 1)
      ⟨PEvent.result p r.cls r.conf :: PEvent.progress (processed + 1) total :: o.events,
        o.counter, o.processed⟩
    else ⟨[], c + 1, processed⟩

/-- The batch loop of run (lines 119-155) over the consecutive batches:
each iteration polls is_running at the top (stopping the run when it is
down), drains the batch through the worker pool, then replays the batch's
results to the UI. -/
def batchesLoop (proc : String → Except String ProcOk) (sched : Nat → Bool)
    (order : Nat → List String → List String) (total : Nat) :
    List (List String) → Nat → Nat → Nat → LoopOut
  | [], _, c, processed => ⟨[], c, processed⟩
  | b :: rest, bi, c, processed =>
    if sched c then
      let f := futsLoop proc sched (order bi b) (c + 1)
      let r := replayLoop sched total f.results f.counter processed
      let o := batchesLoop proc sched order total rest (bi + 1) r.counter r.processed
      ⟨f.events ++ r.events ++ o.events, o.counter, o.processed⟩
    else ⟨[], c + 1, processed⟩

/-- Configuration of one ClassificationThread run. -/
structure RunCfg where
  modelLoad : Except String Unit
  labelsLoad : Except String (List String)
  images : List String
  batchSize : Nat

/-- Embeds ClassificationThread.run: a fatal failure of the model load or
the label read emits one setup error followed by finished; otherwise the
batch loop runs over the consecutive batch_size-chunks of the image list
and finished is emitted once after it. -/
def runThread (cfg : RunCfg) (proc : String → Except String ProcOk)
    (sched : Nat → Bool) (order : Nat → List String → List String) : List PEvent :=
  match cfg.modelLoad with
  | .error e => [PEvent.error (setupErr e), PEvent.finished]
  | .ok _ =>
    match cfg.labelsLoad with
    | .error e => [PEvent.error (setupErr e), PEvent.finished]
    | .ok _ =>
      (batchesLoop proc sched order cfg.images.length
        (batchChunks cfg.batchSize cfg.images) 0 0 0).events ++ [PEvent.finished]

/-- Whether an Except outcome is a success. -/
def exceptOk {ε α : Type} : Except ε α → Bool
  | .ok _ => true
  | .error _ => false

/-- Decidable equality of outcomes, used only to evaluate witnesses. -/
instance {ε α : Type} [DecidableEq ε] [DecidableEq α] : DecidableEq (Except ε α) := fun a b =>
  match a, b with
  | .ok x, .ok y =>
    match decEq x y with
    | .isTrue h => .isTrue (by rw [h])
    | .isFalse h => .isFalse (by intro hc; cases hc; exact h rfl)
  | .error x, .error y =>
    match decEq x y with
    | .isTrue h => .isTrue (by rw [h])
    | .isFalse h => .isFalse (by intro hc; cases hc; exact h rfl)
  | .ok _, .error _ => .isFalse (by intro hc; cases hc)
  | .error _, .ok _ => .isFalse (by intro hc; cases hc)

/-- The batch_results entry produced for one image, when it succeeds. -/
def okPair (proc : String → Except String ProcOk) (p : String) : Option (String × ProcOk) :=
  match proc p with
  | .ok r => some (p, r)
  | .error _ => none

/-- The error event produced for one image, when it fails. -/
def errEvt (proc : String → Except String ProcOk) (p : String) : Option PEvent :=
  match proc p with
  | .ok _ => none
  | .error e => some (PEvent.error (errLine p e))

/-- The interleaved result/progress events replayed for a drained batch,
starting from a given processed count. -/
def replayEvts (total : Nat) : Nat → List (String × ProcOk) → List PEvent
  | _, [] => []
  | processed, (p, r) :: rest =>
    PEvent.result p r.cls r.conf :: PEvent.progress (processed + 1) total ::
      replayEvts total (processed + 1) rest

/-- Projection selecting progress events. -/
def progressOf : PEvent → Option (Nat × Nat)
  | .progress a b => some (a, b)
  | _ => none

/-- The (processed, total) pairs emitted through progress_update, in
emission order. -/
def progressEvents (evs : List PEvent) : List (Nat × Nat) :=
  evs.filterMap progressOf

/-- The value of the poll counter once batches 0..k have been fully
drained and replayed on an uncancelled run: a stop() issued in the gap
before batch k+1 begins makes every later poll of is_running read False,
which is modelled by the flag schedule (n < stopCounter). -/
def stopCounter (cfg : RunCfg) (proc : String → Except String ProcOk)
    (order : Nat → List String → List String) (k : Nat) : Nat :=
  (batchesLoop proc (fun _ => true) order cfg.images.length
    ((batchChunks cfg.batchSize cfg.images).take (k + 1)) 0 0 0).counter

/-! ## ThemeManager._adjust_color (theme_manager.py lines 517-534; identical copy ml.py 493-510)

The brightness factor is a Python float used only through comparisons with
1.0, multiplication, addition and int() truncation; it is embedded as an
exact rational.  int() truncates toward zero (pyInt); for the nonnegative
products arising here that is the floor.  int(s, 16) is modelled for
strings of plain hexadecimal digits (the only shapes reaching it from a
well-formed color); any other character makes the parse fail, as int()
raises ValueError.  The %02x format pads the lowercase hexadecimal digits
of a nonnegative value to width two; a negative value would render as a
sign followed by its digits. -/


/-- Python int() on a rational: truncation toward zero. -/
def pyInt (q : ℚ) : ℤ :=
  if 0 ≤ q then ⌊q⌋ else -⌊-q⌋

/-- Value of one hexadecimal digit: 0-9, a-f, A-F by character code. -/
def hexVal (c : Char) : Option Nat :=
  if 48 ≤ c.toNat ∧ c.toNat ≤ 57 then some (c.toNat - 48)
  else if 97 ≤ c.toNat ∧ c.toNat ≤ 102 then some (c.toNat - 97 + 10)
  else if 65 ≤ c.toNat ∧ c.toNat ≤ 70 then some (c.toNat - 65 + 10)
  else none

/-- Accumulating parse of a hexadecimal digit string. -/
def parseHexAux : List Char → Nat → Option Nat
  | [], acc => some acc
  | c :: cs, acc =>
    match hexVal c with
    | some v => parseHexAux cs (acc * 16 + v)
    | none => none

/-- Python int(s, 16) for a string of plain hex digits; none on the empty
string or a non-digit (ValueError). -/
def parseHex (cs : List Char) : Option Nat :=
  if cs.isEmpty then none else parseHexAux cs 0

/-- The slice s[i:j] of a character list. -/
def pySlice (l : List Char) (i j : Nat) : List Char :=
  (l.drop i).take (j - i)

/-- The character of one hexadecimal digit value, lowercase. -/
def hexDigitChar (n : Nat) : Char :=
  if n < 10 then Char.ofNat (48 + n) else Char.ofNat (97 + (n - 10))

/-- Hexadecimal digits of n, most significant first, via bounded fuel
(fuel n + 1 always suffices since n shrinks by a factor 16 each step). -/
def natHexAux : Nat → Nat → List Char
  | 0, _ => []
  | fuel + 1, n =>
    if n < 16 then [hexDigitChar n]
    else natHexAux fuel (n / 16) ++ [hexDigitChar (n % 16)]

/-- Hexadecimal digit string of a natural number (at least one digit). -/
def natHexDigits (n : Nat) : List Char :=
  natHexAux (n + 1) n

/-- Python format spec 02x: the hexadecimal digits padded with zeros to
width two; a negative value carries its sign ahead of digits padded to
width one. -/
def format02x (n : ℤ) : List Char :=
  if 0 ≤ n then
    List.replicate (2 - (natHexDigits n.toNat).length) '0' ++ natHexDigits n.toNat
  else
    '-' :: (List.replicate (1 - (natHexDigits (-n).toNat).length) '0' ++ natHexDigits (-n).toNat)

/-- The per-channel arithmetic of _adjust_color: darken by multiplying
with the factor and truncating, lighten by moving toward 255 by
(255 - c) * (factor - 1), capped at 255 and truncated; a factor of
exactly 1.0 leaves the channel untouched. -/
def adjustChan (c : Nat) (f : ℚ) : ℤ :=
  if f < 1 then pyInt (c * f)
  else if 1 < f then pyInt (min ((c : ℚ) + (255 - (c : ℚ)) * (f - 1)) 255)
  else (c : ℤ)

/-- Embeds ThemeManager._adjust_color: strip leading '#', parse the three
two-digit channel slices (ValueError -> none), apply the brightness
branch to each channel, and render '#' followed by the three channels in
02x format. -/
def _adjust_color (hex_color : String) (brightness_factor : ℚ) : Option String :=
  let cs := hex_color.toList.dropWhile (· == '#')
  match parseHex (pySlice cs 0 2), parseHex (pySlice cs 2 4), parseHex (pySlice cs 4 6) with
  | some r, some g, some b =>
    some (String.mk ('#' :: (format02x (adjustChan r brightness_factor) ++
      format02x (adjustChan g brightness_factor) ++
      format02x (adjustChan b brightness_factor))))
  | _, _, _ => none

/-- The three channel values a color string parses to (the same parse
_adjust_color performs on its input). -/
def channelsOf (s : String) : Option (Nat × Nat × Nat) :=
  let cs := s.toList.dropWhile (· == '#')
  match parseHex (pySlice cs 0 2), parseHex (pySlice cs 2 4), parseHex (pySlice cs 4 6) with
  | some r, some g, some b => some (r, g, b)
  | _, _, _ => none

/-- A well-formed input color: '#' followed by exactly six hex digits. -/
def validHexColor (s : String) : Bool :=
  match s.toList with
  | c :: cs => c == '#' && (cs.length == 6 && cs.all (fun c => (hexVal c).isSome))
  | [] => false

/-- A lowercase hexadecimal digit (0-9, a-f). -/
def isLowerHexDigit (c : Char) : Bool :=
  (48 ≤ c.toNat && c.toNat ≤ 57) || (97 ≤ c.toNat && c.toNat ≤ 102)

/-- A well-formed output color: '#' followed by exactly six lowercase hex
digits. -/
def isWellFormedColor (s : String) : Bool :=
  match s.toList with
  | c :: cs => c == '#' && (cs.length == 6 && cs.all isLowerHexDigit)
  | [] => false

/-- C1: load_model_safely retries with the substitute layer factory exactly
when the first attempt fails with a message containing both
"DepthwiseConv2D" and "groups"; any other failure is re-raised unchanged
with no second attempt, and on the matching failure the result is exactly
the retry attempt's outcome. -/
theorem load_model_safely_retry_iff (first retry : Except String Nat) :
    ((load_model_safely first retry).2 = true ↔
      ∃ e, first = .error e ∧ pyIn "DepthwiseConv2D" e = true ∧ pyIn "groups" e = true) ∧
    (∀ e, first = .error e →
      (pyIn "DepthwiseConv2D" e = false ∨ pyIn "groups" e = false) →
      load_model_safely first retry = (.error e, false)) ∧
    (∀ e, first = .error e → pyIn "DepthwiseConv2D" e = true → pyIn "groups" e = true →
      load_model_safely first retry = (retry, true)) := by
  refine ⟨?_, ?_, ?_⟩
  · constructor
    · intro h
      match hf : first with
      | .ok m => simp [load_model_safely, hf] at h
      | .error e =>
        refine ⟨e, rfl, ?_, ?_⟩ <;>
        · simp only [load_model_safely, hf] at h
          by_cases h1 : pyIn "DepthwiseConv2D" e = true <;>
            by_cases h2 : pyIn "groups" e = true <;>
            simp [h1, h2] at h ⊢
    · rintro ⟨e, rfl, h1, h2⟩
      simp [load_model_safely, h1, h2]
  · rintro e rfl hor
    rcases hor with h | h <;> simp [load_model_safely, h]
  · rintro e rfl h1 h2
    simp [load_model_safely, h1, h2]

/-- Witness for C1 at concrete inputs: a matching error message triggers the
retry and returns the retry outcome; an unrelated message is re-raised with
no retry. -/
theorem load_model_safely_retry_iff_witness :
    load_model_safely (.error "Unrecognized keyword arguments passed to DepthwiseConv2D: groups")
      (Except.ok 7) = (Except.ok 7, true) ∧
    load_model_safely (Except.error "file not found") (Except.ok 7) =
      (Except.error "file not found", false) := by
  constructor
  · exact (load_model_safely_retry_iff _ (Except.ok 7)).2.2 _ rfl (by decide) (by decide)
  · exact (load_model_safely_retry_iff _ (Except.ok 7)).2.1 _ rfl (Or.inl (by decide))

/-- C2 counterexample: the ml.py variant of process_image cited by the claim
does NOT write the original decoded image: on a 640x480 source image it
writes the 224x224 resized image into the class subfolder, so the saved
file does not have the source image's dimensions. -/
theorem process_image_ml_saves_resized :
    process_image_ml "out" "in/a.jpg" (.ok ⟨640, 480⟩) [1] ["cat"] =
      some (⟨"out/cat/a.jpg", ⟨224, 224⟩⟩, ("in/a.jpg", "cat", 1, "out/cat/a.jpg")) ∧
    (⟨224, 224⟩ : PILImage) ≠ ⟨640, 480⟩ := by
  constructor
  · decide
  · decide

/-- C2 (amended): classification.py's process_image writes the ORIGINAL
decoded image, with its source dimensions, to
output_folder/<predicted_class_name>/<original_filename>; only the legacy
ml.py copy writes the resized image.  Stated for the classification.py
embedding: every successful run saves exactly the decoded image at the
class-subfolder path built from the predicted class and the original
basename. -/
theorem process_image_saves_original (output_folder img_path : String)
    (img : PILImage) (predictions : List ℚ) (labels : List String)
    (r : SavedFile × (String × String × ℚ × String))
    (h : process_image output_folder img_path (.ok img) predictions labels = .ok r) :
    ∃ cls, labels[npArgmax predictions]? = some cls ∧
      r.1.image = img ∧
      r.1.image.width = img.width ∧ r.1.image.height = img.height ∧
      r.1.path = pyJoin (pyJoin output_folder cls) (pyBasename img_path) := by
  match predictions with
  | [] => simp [process_image] at h
  | q :: qs =>
    cases hl : labels[npArgmax (q :: qs)]? with
    | none => simp [process_image, hl] at h
    | some cls =>
      refine ⟨cls, rfl, ?_⟩
      simp only [process_image, hl] at h
      cases h.symm
      exact ⟨rfl, rfl, rfl, rfl⟩

/-- Witness for C2's amended theorem at a concrete input: a 640x480 image
classified as "cat" is saved unresized at out/cat/a.jpg. -/
theorem process_image_saves_original_witness :
    ∃ cls, ["cat"][npArgmax [(1 : ℚ)]]? = some cls ∧
      (SavedFile.mk "out/cat/a.jpg" ⟨640, 480⟩).image = (⟨640, 480⟩ : PILImage) ∧
      (SavedFile.mk "out/cat/a.jpg" ⟨640, 480⟩).image.width = 640 ∧
      (SavedFile.mk "out/cat/a.jpg" ⟨640, 480⟩).image.height = 480 ∧
      (SavedFile.mk "out/cat/a.jpg" ⟨640, 480⟩).path =
        pyJoin (pyJoin "out" cls) (pyBasename "in/a.jpg") :=
  process_image_saves_original "out" "in/a.jpg" ⟨640, 480⟩ [1] ["cat"]
    (⟨"out/cat/a.jpg", ⟨640, 480⟩⟩, ("in/a.jpg", "cat", 1, "out/cat/a.jpg")) rfl

/-- Fuel irrelevance: any fuel of at least the list length chunks the list
the same way (each step consumes at least one element when 0 < B). -/
theorem batchChunksAux_congr {α : Type} (B : Nat) (hB : 0 < B) :
    ∀ (f1 : Nat) (f2 : Nat) (l : List α), l.length ≤ f1 → l.length ≤ f2 →
      batchChunksAux B f1 l = batchChunksAux B f2 l := by
  intro f1
  induction f1 with
  | zero =>
    intro f2 l h1 _
    have : l = [] := List.eq_nil_of_length_eq_zero (Nat.le_zero.mp h1)
    subst this
    cases f2 <;> rfl
  | succ n ih =>
    intro f2 l h1 h2
    match l with
    | [] => cases f2 <;> rfl
    | x :: xs =>
      match f2, h2 with
      | m + 1, _ =>
        show (x :: xs).take B :: batchChunksAux B n ((x :: xs).drop B) =
          (x :: xs).take B :: batchChunksAux B m ((x :: xs).drop B)
        have hd : ((x :: xs).drop B).length ≤ n := by
          simp only [List.length_drop, List.length_cons] at *
          omega
        have hd2 : ((x :: xs).drop B).length ≤ m := by
          simp only [List.length_drop, List.length_cons] at *
          omega
        rw [ih m _ hd hd2]

/-- The batch loop on an empty file list makes no batches. -/
theorem batchChunks_nil {α : Type} (B : Nat) : batchChunks B ([] : List α) = [] := rfl

/-- One step of the batch loop: the first batch_size files form the first
batch and the loop continues on the remaining files. -/
theorem batchChunks_cons {α : Type} (B : Nat) (hB : 0 < B) (x : α) (xs : List α) :
    batchChunks B (x :: xs) = (x :: xs).take B :: batchChunks B ((x :: xs).drop B) := by
  show (x :: xs).take B :: batchChunksAux B xs.length ((x :: xs).drop B) = _
  rw [batchChunks, batchChunksAux_congr B hB xs.length ((x :: xs).drop B).length _ ?_ (Nat.le_refl _)]
  simp only [List.length_drop, List.length_cons]
  omega

/-- Concatenating the batches gives back the original file list: every
discovered image is in exactly one batch, in order. -/
theorem batchChunks_flatten {α : Type} (B : Nat) (hB : 0 < B) (l : List α) :
    (batchChunks B l).flatten = l := by
  generalize hfuel : l.length = n
  induction n using Nat.strong_induction_on generalizing l with
  | _ n ih =>
    subst hfuel
    match l with
    | [] => rfl
    | x :: xs =>
      rw [batchChunks_cons B hB]
      simp only [List.flatten_cons]
      have hlt : ((x :: xs).drop B).length < (x :: xs).length := by
        simp only [List.length_drop, List.length_cons]
        omega
      rw [ih _ hlt _ rfl]
      exact List.take_append_drop B (x :: xs)

/-- Arithmetic step used for the batch count: adding one more (possibly
partial) batch bumps the ceiling division by one. -/
theorem ceil_div_step (m B : Nat) (hB : 0 < B) :
    (m + 1 - B + B - 1) / B + 1 = (m + 1 + B - 1) / B := by
  rcases Nat.lt_or_ge m B with h | h
  · have h1 : m + 1 - B = 0 := by omega
    have h2 : m + 1 + B - 1 = m + B := by omega
    rw [h1, h2]
    have h3 : (0 + B - 1) / B = 0 := Nat.div_eq_of_lt (by omega)
    have h4 : (m + B) / B = 1 := Nat.div_eq_of_lt_le (by omega) (by omega)
    omega
  · have h1 : m + 1 - B + B - 1 = m := by omega
    have h2 : m + 1 + B - 1 = m + B := by omega
    rw [h1, h2, Nat.add_div_right _ hB]

/-- The number of batches is the ceiling of N / batch_size. -/
theorem batchChunks_length {α : Type} (B : Nat) (hB : 0 < B) (l : List α) :
    (batchChunks B l).length = (l.length + B - 1) / B := by
  generalize hfuel : l.length = n
  induction n using Nat.strong_induction_on generalizing l with
  | _ n ih =>
    subst hfuel
    match l with
    | [] =>
      simp only [batchChunks_nil, List.length_nil]
      exact (Nat.div_eq_of_lt (by omega)).symm
    | x :: xs =>
      rw [batchChunks_cons B hB]
      simp only [List.length_cons]
      have hlt : ((x :: xs).drop B).length < (x :: xs).length := by
        simp only [List.length_drop, List.length_cons]
        omega
      rw [ih _ hlt _ rfl]
      simp only [List.length_drop, List.length_cons]
      exact ceil_div_step xs.length B hB

/-- Every batch has at most batch_size files, and every batch except
possibly the last has exactly batch_size files. -/
theorem batchChunks_sizes {α : Type} (B : Nat) (hB : 0 < B) (l : List α) :
    (∀ c ∈ batchChunks B l, c.length ≤ B) ∧
    (∀ c ∈ (batchChunks B l).dropLast, c.length = B) := by
  generalize hfuel : l.length = n
  induction n using Nat.strong_induction_on generalizing l with
  | _ n ih =>
    subst hfuel
    match l with
    | [] => simp [batchChunks_nil]
    | x :: xs =>
      rw [batchChunks_cons B hB]
      have hlt : ((x :: xs).drop B).length < (x :: xs).length := by
        simp only [List.length_drop, List.length_cons]
        omega
      obtain ⟨ih1, ih2⟩ := ih _ hlt ((x :: xs).drop B) rfl
      constructor
      · intro c hc
        rcases List.mem_cons.mp hc with rfl | hc
        · simp only [List.length_take]
          omega
        · exact ih1 c hc
      · intro c hc
        rcases eq_or_ne (batchChunks B ((x :: xs).drop B)) [] with hnil | hnil
        · rw [hnil] at hc
          simp at hc
        · rw [List.dropLast_cons_of_ne_nil hnil] at hc
          rcases List.mem_cons.mp hc with rfl | hc
          · have hne : (x :: xs).drop B ≠ [] := by
              intro hcon
              rw [hcon, batchChunks_nil] at hnil
              exact hnil rfl
            have hBle : B ≤ (x :: xs).length := by
              by_contra hcon
              push_neg at hcon
              exact hne (List.drop_eq_nil_of_le (Nat.le_of_lt hcon))
            simp only [List.length_take]
            omega
          · exact ih2 c hc

/-- C5: for a list of N deduplicated discovered image paths and positive
batch size B, the batch loop of ClassificationThread.run partitions the
list into exactly ceil(N/B) consecutive chunks: concatenating the chunks
in order gives back the whole list (so every image is in exactly one
chunk), every chunk holds at most B images, and every chunk but the last
holds exactly B. -/
theorem batch_loop_partitions {α : Type} (l : List α) (B : Nat) (hB : 0 < B) :
    (batchChunks B l).length = (l.length + B - 1) / B ∧
    (batchChunks B l).flatten = l ∧
    (∀ c ∈ batchChunks B l, c.length ≤ B) ∧
    (∀ c ∈ (batchChunks B l).dropLast, c.length = B) :=
  ⟨batchChunks_length B hB l, batchChunks_flatten B hB l,
    (batchChunks_sizes B hB l).1, (batchChunks_sizes B hB l).2⟩

/-- Witness for C5: five files with batch size two make ceil(5/2) = 3
batches of sizes 2, 2, 1 that concatenate back to the file list. -/
theorem batch_loop_partitions_witness :
    (batchChunks 2 ["a", "b", "c", "d", "e"]).length = (5 + 2 - 1) / 2 ∧
    (batchChunks 2 ["a", "b", "c", "d", "e"]).flatten = ["a", "b", "c", "d", "e"] ∧
    (∀ c ∈ batchChunks 2 ["a", "b", "c", "d", "e"], c.length ≤ 2) ∧
    (∀ c ∈ (batchChunks 2 ["a", "b", "c", "d", "e"]).dropLast, c.length = 2) :=
  batch_loop_partitions ["a", "b", "c", "d", "e"] 2 (by decide)

/-- The future-drain loop never emits the finished signal. -/
theorem futsLoop_no_finished (proc : String → Except String ProcOk) (sched : Nat → Bool) :
    ∀ (l : List String) (c : Nat), PEvent.finished ∉ (futsLoop proc sched l c).events := by
  intro l
  induction l with
  | nil => intro c; simp [futsLoop]
  | cons p rest ih =>
    intro c
    by_cases hs : sched c
    · cases hp : proc p <;> simp [futsLoop, hs, hp, ih (c + 1)]
    · simp [futsLoop, hs]

/-- The batch-result replay loop never emits the finished signal. -/
theorem replayLoop_no_finished (sched : Nat → Bool) (total : Nat) :
    ∀ (l : List (String × ProcOk)) (c processed : Nat),
      PEvent.finished ∉ (replayLoop sched total l c processed).events := by
  intro l
  induction l with
  | nil => intro c processed; simp [replayLoop]
  | cons pr rest ih =>
    intro c processed
    obtain ⟨p, r⟩ := pr
    by_cases hs : sched c
    · simp [replayLoop, hs, ih (c + 1) (processed + 1)]
    · simp [replayLoop, hs]

/-- The batch loop never emits the finished signal. -/
theorem batchesLoop_no_finished (proc : String → Except String ProcOk) (sched : Nat → Bool)
    (order : Nat → List String → List String) (total : Nat) :
    ∀ (bs : List (List String)) (bi c processed : Nat),
      PEvent.finished ∉ (batchesLoop proc sched order total bs bi c processed).events := by
  intro bs
  induction bs with
  | nil => intro bi c processed; simp [batchesLoop]
  | cons b rest ih =>
    intro bi c processed
    by_cases hs : sched c
    · simp only [batchesLoop, hs, if_pos, List.mem_append]
      push_neg
      exact ⟨⟨futsLoop_no_finished proc sched _ _, replayLoop_no_finished sched total _ _ _⟩,
        ih _ _ _⟩
    · simp [batchesLoop, hs]

/-- Every run trace contains the finished event exactly once. -/
theorem runThread_finished_count (cfg : RunCfg) (proc : String → Except String ProcOk)
    (sched : Nat → Bool) (order : Nat → List String → List String) :
    (runThread cfg proc sched order).count PEvent.finished = 1 := by
  match hm : cfg.modelLoad with
  | .error e => simp [runThread, hm, List.count_cons, List.count_singleton]
  | .ok _ =>
    match hl : cfg.labelsLoad with
    | .error e => simp [runThread, hm, hl, List.count_cons, List.count_singleton]
    | .ok ls =>
      rw [runThread]
      simp only [hm, hl]
      rw [List.count_append]
      rw [List.count_eq_zero.mpr (batchesLoop_no_finished proc sched order _ _ _ _ _)]
      rfl

/-- C3: each run emits the finished signal exactly once, whatever the
cancellation-flag schedule, the per-image outcomes and the completion
order; and on a fatal setup failure (model load, or label read after a
successful model load) the trace is exactly one setup-error emission
followed by finished. -/
theorem run_emits_finished_once (cfg : RunCfg) (proc : String → Except String ProcOk)
    (sched : Nat → Bool) (order : Nat → List String → List String) :
    (runThread cfg proc sched order).count PEvent.finished = 1 ∧
    (∀ e, cfg.modelLoad = .error e →
      runThread cfg proc sched order = [PEvent.error (setupErr e), PEvent.finished]) ∧
    (∀ e, cfg.modelLoad = .ok () → cfg.labelsLoad = .error e →
      runThread cfg proc sched order = [PEvent.error (setupErr e), PEvent.finished]) := by
  refine ⟨runThread_finished_count cfg proc sched order, ?_, ?_⟩
  · intro e hm
    simp [runThread, hm]
  · intro e hm hl
    simp [runThread, hm, hl]

/-- Witness for C3 at concrete runs: a two-image happy-path run emits
finished exactly once, and a failing model load yields exactly the
setup-error trace. -/
theorem run_emits_finished_once_witness :
    (runThread ⟨.ok (), .ok ["cat"], ["a", "b"], 16⟩
        (fun _ => .ok ⟨"cat", "0.99"⟩) (fun _ => true) (fun _ l => l)).count
        PEvent.finished = 1 ∧
    runThread ⟨.error "bad model", .ok ["cat"], ["a", "b"], 16⟩
        (fun _ => .ok ⟨"cat", "0.99"⟩) (fun _ => true) (fun _ l => l) =
      [PEvent.error (setupErr "bad model"), PEvent.finished] :=
  ⟨(run_emits_finished_once _ _ _ _).1,
    (run_emits_finished_once _ _ _ _).2.1 "bad model" rfl⟩

/-- With the cancellation flag up throughout, draining a batch emits
exactly the error events of its failing images (in completion order),
collects exactly the successes as batch_results, and consumes one poll
per image. -/
theorem futsLoop_true (proc : String → Except String ProcOk) :
    ∀ (l : List String) (c : Nat),
      futsLoop proc (fun _ => true) l c =
        ⟨l.filterMap (errEvt proc), l.filterMap (okPair proc), c + l.length⟩ := by
  intro l
  induction l with
  | nil => intro c; simp [futsLoop]
  | cons p rest ih =>
    intro c
    cases hp : proc p with
    | ok r =>
      simp [futsLoop, hp, ih (c + 1), okPair, errEvt, List.filterMap_cons]
      omega
    | error e =>
      simp [futsLoop, hp, ih (c + 1), okPair, errEvt, List.filterMap_cons]
      omega

/-- With the cancellation flag up throughout, the replay loop emits one
result and one progress event per batch result and advances the processed
count by the number of batch results. -/
theorem replayLoop_true (total : Nat) :
    ∀ (l : List (String × ProcOk)) (c processed : Nat),
      replayLoop (fun _ => true) total l c processed =
        ⟨replayEvts total processed l, c + l.length, processed + l.length⟩ := by
  intro l
  induction l with
  | nil => intro c processed; simp [replayLoop, replayEvts]
  | cons pr rest ih =>
    intro c processed
    obtain ⟨p, r⟩ := pr
    simp [replayLoop, ih (c + 1) (processed + 1), replayEvts]
    omega

/-- Progress extraction distributes over trace concatenation. -/
theorem progressEvents_append (a b : List PEvent) :
    progressEvents (a ++ b) = progressEvents a ++ progressEvents b :=
  List.filterMap_append a b progressOf

/-- Replaying a drained batch emits the consecutive progress pairs
processed+1, processed+2, ... one per batch result. -/
theorem progress_replayEvts (total : Nat) :
    ∀ (l : List (String × ProcOk)) (processed : Nat),
      progressEvents (replayEvts total processed l) =
        (List.range l.length).map (fun j => (processed + 1 + j, total)) := by
  intro l
  induction l with
  | nil => intro processed; rfl
  | cons pr rest ih =>
    intro processed
    obtain ⟨p, r⟩ := pr
    show progressEvents (_ :: _ :: replayEvts total (processed + 1) rest) = _
    simp only [progressEvents, List.filterMap_cons, progressOf, List.length_cons]
    rw [show (List.range (rest.length + 1)) = 0 :: List.map Nat.succ (List.range rest.length)
      from List.range_succ_eq_map rest.length]
    simp only [List.map_cons, List.map_map]
    refine congrArg₂ _ (by simp) ?_
    rw [← progressEvents, ih (processed + 1)]
    refine List.map_congr_left ?_
    intro j _
    simp only [Function.comp_apply]
    simp only [Prod.mk.injEq, Nat.succ_eq_add_one]
    exact ⟨by omega, trivial⟩

/-- Error events are not progress events. -/
theorem errEvt_no_progress (proc : String → Except String ProcOk) (l : List String) :
    progressEvents (l.filterMap (errEvt proc)) = [] := by
  rw [progressEvents, List.filterMap_eq_nil_iff]
  intro ev hev
  obtain ⟨p, _, hp⟩ := List.mem_filterMap.mp hev
  unfold errEvt at hp
  cases hproc : proc p <;> rw [hproc] at hp
  · simp at hp
    cases hp.symm
    rfl
  · simp at hp

/-- Successes collected from a drained batch are exactly the images whose
processing succeeds, counted by countP. -/
theorem okPair_length (proc : String → Except String ProcOk) (l : List String) :
    (l.filterMap (okPair proc)).length = l.countP (fun p => exceptOk (proc p)) := by
  induction l with
  | nil => rfl
  | cons p rest ih =>
    cases hp : proc p <;>
      simp [okPair, hp, List.filterMap_cons, List.countP_cons, exceptOk, ih]

/-- Unfolding of one batch iteration under the always-up flag: the batch
is drained (error events, then batch results replayed) and the loop
continues with the counter advanced by one poll per image plus one per
replayed result, and the processed count advanced by the batch's
successes. -/
theorem batchesLoop_true_cons (proc : String → Except String ProcOk)
    (order : Nat → List String → List String) (total : Nat)
    (b : List String) (rest : List (List String)) (bi c processed : Nat) :
    batchesLoop proc (fun _ => true) order total (b :: rest) bi c processed =
      ⟨(order bi b).filterMap (errEvt proc) ++
        (replayEvts total processed ((order bi b).filterMap (okPair proc)) ++
          (batchesLoop proc (fun _ => true) order total rest (bi + 1)
            (c + 1 + (order bi b).length + ((order bi b).filterMap (okPair proc)).length)
            (processed + ((order bi b).filterMap (okPair proc)).length)).events),
       (batchesLoop proc (fun _ => true) order total rest (bi + 1)
          (c + 1 + (order bi b).length + ((order bi b).filterMap (okPair proc)).length)
          (processed + ((order bi b).filterMap (okPair proc)).length)).counter,
       (batchesLoop proc (fun _ => true) order total rest (bi + 1)
          (c + 1 + (order bi b).length + ((order bi b).filterMap (okPair proc)).length)
          (processed + ((order bi b).filterMap (okPair proc)).length)).processed⟩ := by
  simp [batchesLoop, futsLoop_true, replayLoop_true]

/-- With the cancellation flag up throughout and each batch drained in
some permutation of submission order, the batch loop emits exactly the
progress pairs processed+1, ..., processed+S with S the total number of
successful images across the batches, and advances the processed counter
by S. -/
theorem progress_batches_true (proc : String → Except String ProcOk)
    (order : Nat → List String → List String) (total : Nat)
    (horder : ∀ i b, (order i b).Perm b) :
    ∀ (bs : List (List String)) (bi c processed : Nat),
      progressEvents ((batchesLoop proc (fun _ => true) order total bs bi c processed).events) =
        (List.range ((bs.map (fun b => b.countP (fun p => exceptOk (proc p)))).sum)).map
          (fun j => (processed + 1 + j, total)) ∧
      (batchesLoop proc (fun _ => true) order total bs bi c processed).processed =
        processed + (bs.map (fun b => b.countP (fun p => exceptOk (proc p)))).sum := by
  intro bs
  induction bs with
  | nil => intro bi c processed; exact ⟨rfl, by simp [batchesLoop]⟩
  | cons b rest ih =>
    intro bi c processed
    have hs1 : ((order bi b).filterMap (okPair proc)).length =
        b.countP (fun p => exceptOk (proc p)) := by
      rw [okPair_length, (horder bi b).countP_eq]
    rw [batchesLoop_true_cons]
    obtain ⟨ih1, ih2⟩ := ih (bi + 1)
      (c + 1 + (order bi b).length + ((order bi b).filterMap (okPair proc)).length)
      (processed + ((order bi b).filterMap (okPair proc)).length)
    constructor
    · rw [progressEvents_append, progressEvents_append, errEvt_no_progress,
        progress_replayEvts, ih1, hs1]
      simp only [List.nil_append, List.map_cons, List.sum_cons]
      rw [List.range_add, List.map_append, List.map_map]
      refine congrArg₂ _ rfl ?_
      refine List.map_congr_left ?_
      intro j _
      simp only [Function.comp_apply]
      simp only [Prod.mk.injEq]
      exact ⟨by omega, trivial⟩
    · rw [ih2, hs1]
      simp only [List.map_cons, List.sum_cons]
      omega

/-- Successes and failures together account for every image. -/
theorem countP_not_add {α : Type} (p : α → Bool) (l : List α) :
    l.countP p + l.countP (fun a => !(p a)) = l.length := by
  induction l with
  | nil => rfl
  | cons x xs ih =>
    cases hx : p x <;> simp [List.countP_cons, hx] <;> omega

/-- C9: on an uncancelled run with successful setup, the progress_update
emissions are exactly (1, N), (2, N), ..., (S, N) where N is the number of
discovered images and S the number of images whose processing succeeded:
a failed image never increments the processed count, every emission
satisfies processed <= total, consecutive emissions increase by exactly
one, the final emission reports N - F processed out of N when F images
fail, and no emission reaches N when any image failed. -/
theorem progress_counts_successes (cfg : RunCfg) (proc : String → Except String ProcOk)
    (order : Nat → List String → List String)
    (hm : cfg.modelLoad = .ok ()) (hl : ∃ ls, cfg.labelsLoad = .ok ls)
    (hB : 0 < cfg.batchSize) (horder : ∀ i b, (order i b).Perm b) :
    progressEvents (runThread cfg proc (fun _ => true) order) =
      (List.range (cfg.images.countP (fun p => exceptOk (proc p)))).map
        (fun j => (j + 1, cfg.images.length)) ∧
    cfg.images.countP (fun p => exceptOk (proc p)) +
      cfg.images.countP (fun p => !(exceptOk (proc p))) = cfg.images.length ∧
    (0 < cfg.images.countP (fun p => !(exceptOk (proc p))) →
      ∀ pr tot, (pr, tot) ∈ progressEvents (runThread cfg proc (fun _ => true) order) →
        pr < cfg.images.length) := by
  obtain ⟨ls, hls⟩ := hl
  have hsum : ((batchChunks cfg.batchSize cfg.images).map
      (fun b => b.countP (fun p => exceptOk (proc p)))).sum =
      cfg.images.countP (fun p => exceptOk (proc p)) := by
    rw [← List.countP_flatten, batchChunks_flatten cfg.batchSize hB cfg.images]
  have htrace : progressEvents (runThread cfg proc (fun _ => true) order) =
      (List.range (cfg.images.countP (fun p => exceptOk (proc p)))).map
        (fun j => (j + 1, cfg.images.length)) := by
    rw [runThread]
    simp only [hm, hls]
    rw [progressEvents_append,
      (progress_batches_true proc order cfg.images.length horder
        (batchChunks cfg.batchSize cfg.images) 0 0 0).1, hsum]
    have hfin : progressEvents [PEvent.finished] = [] := rfl
    rw [hfin, List.append_nil]
    refine List.map_congr_left ?_
    intro j _
    simp only [Prod.mk.injEq]
    exact ⟨by omega, trivial⟩
  refine ⟨htrace, countP_not_add _ _, ?_⟩
  · intro hF pr tot hmem
    rw [htrace] at hmem
    obtain ⟨j, hj, hpair⟩ := List.mem_map.mp hmem
    have hjlt : j < cfg.images.countP (fun p => exceptOk (proc p)) := List.mem_range.mp hj
    have hSN : cfg.images.countP (fun p => exceptOk (proc p)) < cfg.images.length := by
      have := countP_not_add (fun p => exceptOk (proc p)) cfg.images
      omega
    have hpr : pr = j + 1 := by
      have := congrArg Prod.fst hpair
      simpa using this.symm
    omega

/-- Witness for C9: three images of which the middle one fails yield the
progress trace (1, 3), (2, 3): the failure never increments the count and
progress never reaches 3. -/
theorem progress_counts_successes_witness :
    progressEvents (runThread ⟨.ok (), .ok ["cat"], ["a", "b", "c"], 2⟩
        (fun p => if p = "b" then .error "boom" else .ok ⟨"cat", "0.90"⟩)
        (fun _ => true) (fun _ l => l)) =
      (List.range ((["a", "b", "c"] : List String).countP
        (fun p => exceptOk (if p = "b" then (.error "boom" : Except String ProcOk)
          else .ok ⟨"cat", "0.90"⟩)))).map (fun j => (j + 1, 3)) :=
  (progress_counts_successes ⟨.ok (), .ok ["cat"], ["a", "b", "c"], 2⟩
    (fun p => if p = "b" then .error "boom" else .ok ⟨"cat", "0.90"⟩)
    (fun _ l => l) rfl ⟨["cat"], rfl⟩ (by decide) (fun _ b => List.Perm.refl b)).1

/-- Every batch result is replayed: its result_update event appears in the
replay trace. -/
theorem result_mem_replayEvts (total : Nat) :
    ∀ (l : List (String × ProcOk)) (processed : Nat) (p : String) (r : ProcOk),
      (p, r) ∈ l → PEvent.result p r.cls r.conf ∈ replayEvts total processed l := by
  intro l
  induction l with
  | nil => intro processed p r h; simp at h
  | cons pr rest ih =>
    intro processed p r h
    obtain ⟨p', r'⟩ := pr
    rcases List.mem_cons.mp h with heq | hmem
    · cases heq
      exact List.mem_cons_self _ _
    · exact List.mem_cons_of_mem _ (List.mem_cons_of_mem _ (ih (processed + 1) p r hmem))

/-- On an uncancelled run, every failing image of the batch list gets its
error event emitted. -/
theorem err_mem_batches_true (proc : String → Except String ProcOk)
    (order : Nat → List String → List String) (total : Nat)
    (horder : ∀ i b, (order i b).Perm b) :
    ∀ (bs : List (List String)) (bi c processed : Nat) (q e : String),
      q ∈ bs.flatten → proc q = .error e →
      PEvent.error (errLine q e) ∈
        (batchesLoop proc (fun _ => true) order total bs bi c processed).events := by
  intro bs
  induction bs with
  | nil => intro bi c processed q e hq _; simp at hq
  | cons b rest ih =>
    intro bi c processed q e hq hproc
    rw [batchesLoop_true_cons]
    simp only [List.flatten_cons, List.mem_append] at hq
    rcases hq with hq | hq
    · refine List.mem_append_left _ ?_
      exact List.mem_filterMap.mpr ⟨q, (horder bi b).mem_iff.mpr hq, by simp [errEvt, hproc]⟩
    · exact List.mem_append_right _ (List.mem_append_right _ (ih _ _ _ q e hq hproc))

/-- On an uncancelled run, every succeeding image of the batch list gets
its result_update event emitted. -/
theorem res_mem_batches_true (proc : String → Except String ProcOk)
    (order : Nat → List String → List String) (total : Nat)
    (horder : ∀ i b, (order i b).Perm b) :
    ∀ (bs : List (List String)) (bi c processed : Nat) (p : String) (r : ProcOk),
      p ∈ bs.flatten → proc p = .ok r →
      PEvent.result p r.cls r.conf ∈
        (batchesLoop proc (fun _ => true) order total bs bi c processed).events := by
  intro bs
  induction bs with
  | nil => intro bi c processed p r hp _; simp at hp
  | cons b rest ih =>
    intro bi c processed p r hp hproc
    rw [batchesLoop_true_cons]
    simp only [List.flatten_cons, List.mem_append] at hp
    rcases hp with hp | hp
    · refine List.mem_append_right _ (List.mem_append_left _ ?_)
      refine result_mem_replayEvts total _ processed p r ?_
      exact List.mem_filterMap.mpr ⟨p, (horder bi b).mem_iff.mpr hp, by simp [okPair, hproc]⟩
    · exact List.mem_append_right _ (List.mem_append_right _ (ih _ _ _ p r hp hproc))

/-- C6: with successful setup and no cancellation, a failure while
processing one image is reported through the error signal carrying that
image's basename, the run is not terminated by it: every other image that
succeeds still gets its result_update emitted, whatever batch it is in,
and the run still ends with the normal finished emission (finished last,
exactly once). -/
theorem image_failure_is_isolated (cfg : RunCfg) (proc : String → Except String ProcOk)
    (order : Nat → List String → List String)
    (hm : cfg.modelLoad = .ok ()) (hl : ∃ ls, cfg.labelsLoad = .ok ls)
    (hB : 0 < cfg.batchSize) (horder : ∀ i b, (order i b).Perm b) :
    (∀ q e, q ∈ cfg.images → proc q = .error e →
      PEvent.error (errLine q e) ∈ runThread cfg proc (fun _ => true) order) ∧
    (∀ p r, p ∈ cfg.images → proc p = .ok r →
      PEvent.result p r.cls r.conf ∈ runThread cfg proc (fun _ => true) order) ∧
    (runThread cfg proc (fun _ => true) order).getLast? = some PEvent.finished ∧
    (runThread cfg proc (fun _ => true) order).count PEvent.finished = 1 := by
  obtain ⟨ls, hls⟩ := hl
  have hflat : (batchChunks cfg.batchSize cfg.images).flatten = cfg.images :=
    batchChunks_flatten cfg.batchSize hB cfg.images
  refine ⟨?_, ?_, ?_, runThread_finished_count cfg proc _ order⟩
  · intro q e hq hproc
    rw [runThread]
    simp only [hm, hls]
    refine List.mem_append_left _ ?_
    have hq2 : q ∈ (batchChunks cfg.batchSize cfg.images).flatten := by
      rw [hflat]; exact hq
    exact err_mem_batches_true proc order cfg.images.length horder _ 0 0 0 q e hq2 hproc
  · intro p r hp hproc
    rw [runThread]
    simp only [hm, hls]
    refine List.mem_append_left _ ?_
    have hp2 : p ∈ (batchChunks cfg.batchSize cfg.images).flatten := by
      rw [hflat]; exact hp
    exact res_mem_batches_true proc order cfg.images.length horder _ 0 0 0 p r hp2 hproc
  · rw [runThread]
    simp only [hm, hls]
    exact List.getLast?_concat _

/-- Witness for C6: with image "b" failing among three, the error event
for "b" and the result event for "c" (a later batch) are both in the
trace, which still ends with a single finished. -/
theorem image_failure_is_isolated_witness :
    PEvent.error (errLine "b" "boom") ∈
      runThread ⟨.ok (), .ok ["cat"], ["a", "b", "c"], 2⟩
        (fun p => if p = "b" then .error "boom" else .ok ⟨"cat", "0.90"⟩)
        (fun _ => true) (fun _ l => l) ∧
    PEvent.result "c" "cat" "0.90" ∈
      runThread ⟨.ok (), .ok ["cat"], ["a", "b", "c"], 2⟩
        (fun p => if p = "b" then .error "boom" else .ok ⟨"cat", "0.90"⟩)
        (fun _ => true) (fun _ l => l) := by
  have h := image_failure_is_isolated ⟨.ok (), .ok ["cat"], ["a", "b", "c"], 2⟩
    (fun p => if p = "b" then .error "boom" else .ok ⟨"cat", "0.90"⟩)
    (fun _ l => l) rfl ⟨["cat"], rfl⟩ (by decide) (fun _ b => List.Perm.refl b)
  exact ⟨h.1 "b" "boom" (by decide) (by decide),
    h.2.1 "c" ⟨"cat", "0.90"⟩ (by decide) (by decide)⟩

/-- The poll counter never decreases across the batch loop under the
always-up flag. -/
theorem batchesLoop_true_counter_ge (proc : String → Except String ProcOk)
    (order : Nat → List String → List String) (total : Nat) :
    ∀ (bs : List (List String)) (bi c processed : Nat),
      c ≤ (batchesLoop proc (fun _ => true) order total bs bi c processed).counter := by
  intro bs
  induction bs with
  | nil => intro bi c processed; exact Nat.le_refl c
  | cons b rest ih =>
    intro bi c processed
    rw [batchesLoop_true_cons]
    exact Nat.le_trans (by omega)
      (ih (bi + 1) (c + 1 + (order bi b).length + ((order bi b).filterMap (okPair proc)).length)
        (processed + ((order bi b).filterMap (okPair proc)).length))

/-- While every poll index stays below T, a flag that is up below T
behaves like the always-up flag when draining a batch. -/
theorem futsLoop_window (proc : String → Except String ProcOk) (sched : Nat → Bool) (T : Nat)
    (hT : ∀ n, n < T → sched n = true) :
    ∀ (l : List String) (c : Nat), c + l.length ≤ T →
      futsLoop proc sched l c = futsLoop proc (fun _ => true) l c := by
  intro l
  induction l with
  | nil => intro c _; rfl
  | cons p rest ih =>
    intro c hc
    have hs : sched c = true := hT c (by simp at hc; omega)
    have hrec := ih (c + 1) (by simp at hc ⊢; omega)
    cases hp : proc p <;> simp [futsLoop, hs, hp, hrec]

/-- Same window property for the batch-result replay loop. -/
theorem replayLoop_window (sched : Nat → Bool) (total T : Nat)
    (hT : ∀ n, n < T → sched n = true) :
    ∀ (l : List (String × ProcOk)) (c processed : Nat), c + l.length ≤ T →
      replayLoop sched total l c processed = replayLoop (fun _ => true) total l c processed := by
  intro l
  induction l with
  | nil => intro c processed _; rfl
  | cons pr rest ih =>
    intro c processed hc
    obtain ⟨p, r⟩ := pr
    have hs : sched c = true := hT c (by simp at hc; omega)
    have hrec := ih (c + 1) (processed + 1) (by simp at hc ⊢; omega)
    simp [replayLoop, hs, hrec]

/-- Unfolding of one batch iteration when the poll at its top sees the
flag up, for an arbitrary flag schedule. -/
theorem batchesLoop_cons_up (proc : String → Except String ProcOk) (sched : Nat → Bool)
    (order : Nat → List String → List String) (total : Nat)
    (b : List String) (rest : List (List String)) (bi c processed : Nat)
    (hs : sched c = true) :
    batchesLoop proc sched order total (b :: rest) bi c processed =
      ⟨(futsLoop proc sched (order bi b) (c + 1)).events ++
        ((replayLoop sched total (futsLoop proc sched (order bi b) (c + 1)).results
          (futsLoop proc sched (order bi b) (c + 1)).counter processed).events ++
        (batchesLoop proc sched order total rest (bi + 1)
          (replayLoop sched total (futsLoop proc sched (order bi b) (c + 1)).results
            (futsLoop proc sched (order bi b) (c + 1)).counter processed).counter
          (replayLoop sched total (futsLoop proc sched (order bi b) (c + 1)).results
            (futsLoop proc sched (order bi b) (c + 1)).counter processed).processed).events),
       (batchesLoop proc sched order total rest (bi + 1)
          (replayLoop sched total (futsLoop proc sched (order bi b) (c + 1)).results
            (futsLoop proc sched (order bi b) (c + 1)).counter processed).counter
          (replayLoop sched total (futsLoop proc sched (order bi b) (c + 1)).results
            (futsLoop proc sched (order bi b) (c + 1)).counter processed).processed).counter,
       (batchesLoop proc sched order total rest (bi + 1)
          (replayLoop sched total (futsLoop proc sched (order bi b) (c + 1)).results
            (futsLoop proc sched (order bi b) (c + 1)).counter processed).counter
          (replayLoop sched total (futsLoop proc sched (order bi b) (c + 1)).results
            (futsLoop proc sched (order bi b) (c + 1)).counter processed).processed).processed⟩ := by
  simp [batchesLoop, hs]

/-- A flag that goes down exactly at poll index T, where T is the counter
value after the first group of batches is fully drained and replayed,
produces exactly the events of those batches and nothing from the later
batches: the top-of-loop poll of the next batch sees the flag down and
stops the run. -/
theorem stopped_batches_events (proc : String → Except String ProcOk)
    (order : Nat → List String → List String) (total T : Nat) :
    ∀ (l1 l2 : List (List String)) (bi c processed : Nat),
      (batchesLoop proc (fun _ => true) order total l1 bi c processed).counter = T →
      (batchesLoop proc (fun n => decide (n < T)) order total (l1 ++ l2) bi c processed).events =
        (batchesLoop proc (fun _ => true) order total l1 bi c processed).events := by
  intro l1
  induction l1 with
  | nil =>
    intro l2 bi c processed hend
    have hc : c = T := hend
    subst hc
    match l2 with
    | [] => rfl
    | b :: rest =>
      have hs : decide (c < c) = false := by simp
      simp [batchesLoop, hs]
  | cons b rest1 ih =>
    intro l2 bi c processed hend
    rw [batchesLoop_true_cons] at hend
    have hmono := batchesLoop_true_counter_ge proc order total rest1 (bi + 1)
      (c + 1 + (order bi b).length + ((order bi b).filterMap (okPair proc)).length)
      (processed + ((order bi b).filterMap (okPair proc)).length)
    rw [hend] at hmono
    have hcT : c < T := by omega
    have hsched : decide (c < T) = true := by simp [hcT]
    have hT : ∀ n, n < T → decide (n < T) = true := by
      intro n hn; simp [hn]
    rw [List.cons_append]
    rw [batchesLoop_cons_up proc _ order total b (rest1 ++ l2) bi c processed
      (by simp [hcT])]
    simp only []
    rw [futsLoop_window proc _ T hT (order bi b) (c + 1) (by omega)]
    rw [futsLoop_true]
    simp only []
    rw [replayLoop_window _ total T hT _ _ processed (by omega)]
    rw [replayLoop_true]
    simp only []
    rw [batchesLoop_true_cons]
    simp only [List.append_cancel_left_eq]
    rw [ih l2 (bi + 1) _ _ hend]

/-- A batch_results entry determines its image and outcome. -/
theorem okPair_eq_some (proc : String → Except String ProcOk) (q p : String) (r : ProcOk) :
    okPair proc q = some (p, r) → q = p ∧ proc q = .ok r := by
  unfold okPair
  cases hq : proc q with
  | ok r' =>
    intro h
    simp at h
    exact ⟨h.1, by rw [h.2]⟩

  | error e => intro h; simp at h

/-- A result event replayed for a batch comes from one of its batch
results. -/
theorem result_src_replayEvts (total : Nat) :
    ∀ (l : List (String × ProcOk)) (processed : Nat) (p cls cf : String),
      PEvent.result p cls cf ∈ replayEvts total processed l → ∃ r, (p, r) ∈ l := by
  intro l
  induction l with
  | nil => intro processed p cls cf h; simp [replayEvts] at h
  | cons pr rest ih =>
    intro processed p cls cf h
    obtain ⟨p', r'⟩ := pr
    rcases List.mem_cons.mp h with heq | h2
    · cases heq
      exact ⟨r', List.mem_cons_self _ _⟩
    · rcases List.mem_cons.mp h2 with heq | h3
      · cases heq
      · obtain ⟨r, hr⟩ := ih (processed + 1) p cls cf h3
        exact ⟨r, List.mem_cons_of_mem _ hr⟩

/-- Under the always-up flag, every result event emitted by the batch
loop names an image of one of its batches. -/
theorem result_src_batches_true (proc : String → Except String ProcOk)
    (order : Nat → List String → List String) (total : Nat)
    (horder : ∀ i b, (order i b).Perm b) :
    ∀ (bs : List (List String)) (bi c processed : Nat) (p cls cf : String),
      PEvent.result p cls cf ∈
        (batchesLoop proc (fun _ => true) order total bs bi c processed).events →
      p ∈ bs.flatten := by
  intro bs
  induction bs with
  | nil => intro bi c processed p cls cf h; simp [batchesLoop] at h
  | cons b rest ih =>
    intro bi c processed p cls cf h
    rw [batchesLoop_true_cons] at h
    simp only [List.flatten_cons, List.mem_append]
    rcases List.mem_append.mp h with herr | h2
    · obtain ⟨q, _, hq⟩ := List.mem_filterMap.mp herr
      unfold errEvt at hq
      cases hpq : proc q <;> rw [hpq] at hq <;> simp at hq
    · rcases List.mem_append.mp h2 with hrep | hrest
      · obtain ⟨r, hr⟩ := result_src_replayEvts total _ processed p cls cf hrep
        obtain ⟨q, hqmem, hqok⟩ := List.mem_filterMap.mp hr
        obtain ⟨rfl, _⟩ := okPair_eq_some proc q p r hqok
        exact Or.inl ((horder bi b).mem_iff.mp hqmem)
      · exact Or.inr (ih _ _ _ p cls cf hrest)

/-- C4: if stop() is requested after batch k has been fully drained and
before batch k+1 begins (the flag is up for every poll during batches
0..k and down from the top-of-loop poll of batch k+1 on), then no
result_update is ever emitted for any image of batch k+1 or any later
batch, and the run still ends with exactly one finished emission. -/
theorem stop_after_batch_no_later_results (cfg : RunCfg)
    (proc : String → Except String ProcOk) (order : Nat → List String → List String)
    (k : Nat) (hm : cfg.modelLoad = .ok ()) (hl : ∃ ls, cfg.labelsLoad = .ok ls)
    (hB : 0 < cfg.batchSize) (hnd : cfg.images.Nodup)
    (horder : ∀ i b, (order i b).Perm b) :
    (∀ p cls cf,
      PEvent.result p cls cf ∈
        runThread cfg proc (fun n => decide (n < stopCounter cfg proc order k)) order →
      p ∉ ((batchChunks cfg.batchSize cfg.images).drop (k + 1)).flatten) ∧
    (runThread cfg proc (fun n => decide (n < stopCounter cfg proc order k)) order).count
      PEvent.finished = 1 := by
  obtain ⟨ls, hls⟩ := hl
  refine ⟨?_, runThread_finished_count cfg proc _ order⟩
  intro p cls cf hmem hdrop
  rw [runThread] at hmem
  simp only [hm, hls] at hmem
  rcases List.mem_append.mp hmem with hev | hfin
  · rw [show batchChunks cfg.batchSize cfg.images =
        (batchChunks cfg.batchSize cfg.images).take (k + 1) ++
          (batchChunks cfg.batchSize cfg.images).drop (k + 1)
      from (List.take_append_drop _ _).symm] at hev
    rw [stopped_batches_events proc order cfg.images.length
      (stopCounter cfg proc order k) _ _ 0 0 0 rfl] at hev
    have hp : p ∈ ((batchChunks cfg.batchSize cfg.images).take (k + 1)).flatten :=
      result_src_batches_true proc order cfg.images.length horder _ 0 0 0 p cls cf hev
    have happ : ((batchChunks cfg.batchSize cfg.images).take (k + 1)).flatten ++
        ((batchChunks cfg.batchSize cfg.images).drop (k + 1)).flatten = cfg.images := by
      rw [← List.flatten_append, List.take_append_drop,
        batchChunks_flatten cfg.batchSize hB cfg.images]
    have hnd2 : (((batchChunks cfg.batchSize cfg.images).take (k + 1)).flatten ++
        ((batchChunks cfg.batchSize cfg.images).drop (k + 1)).flatten).Nodup := by
      rw [happ]; exact hnd
    exact ((List.nodup_append.mp hnd2).2.2) hp hdrop
  · simp at hfin

/-- Witness for C4: three images in batches of two with the stop issued
after batch 0: no result for image "c" (batch 1) is possible and finished
is emitted once. -/
theorem stop_after_batch_no_later_results_witness :
    (∀ p cls cf,
      PEvent.result p cls cf ∈
        runThread ⟨.ok (), .ok ["cat"], ["a", "b", "c"], 2⟩
          (fun _ => .ok ⟨"cat", "0.90"⟩)
          (fun n => decide (n < stopCounter ⟨.ok (), .ok ["cat"], ["a", "b", "c"], 2⟩
            (fun _ => .ok ⟨"cat", "0.90"⟩) (fun _ l => l) 0)) (fun _ l => l) →
      p ∉ ((batchChunks 2 ["a", "b", "c"]).drop 1).flatten) ∧
    (runThread ⟨.ok (), .ok ["cat"], ["a", "b", "c"], 2⟩
        (fun _ => .ok ⟨"cat", "0.90"⟩)
        (fun n => decide (n < stopCounter ⟨.ok (), .ok ["cat"], ["a", "b", "c"], 2⟩
          (fun _ => .ok ⟨"cat", "0.90"⟩) (fun _ l => l) 0)) (fun _ l => l)).count
      PEvent.finished = 1 :=
  stop_after_batch_no_later_results ⟨.ok (), .ok ["cat"], ["a", "b", "c"], 2⟩
    (fun _ => .ok ⟨"cat", "0.90"⟩) (fun _ l => l) 0 rfl ⟨["cat"], rfl⟩
    (by decide) (by decide) (fun _ b => List.Perm.refl b)

/-- Formatting a byte in 02x and parsing it back is the identity; the
rendering is two lowercase hexadecimal digits. -/
theorem roundtrip256 : ∀ m : Nat, m < 256 →
    parseHex (format02x (m : ℤ)) = some m ∧
    (format02x (m : ℤ)).length = 2 ∧
    (format02x (m : ℤ)).all isLowerHexDigit = true := by decide

/-- A hexadecimal digit value is below 16. -/
theorem hexVal_lt (c : Char) (v : Nat) (h : hexVal c = some v) : v < 16 := by
  unfold hexVal at h
  split at h
  · simp at h; omega
  · split at h
    · simp at h; omega
    · split at h
      · simp at h; omega
      · simp at h

/-- Hexadecimal digits are not the '#' character. -/
theorem hexVal_ne_hash (c : Char) (h : (hexVal c).isSome = true) : (c == '#') = false := by
  cases heq : c == '#'
  · rfl
  · have hc : c = '#' := eq_of_beq heq
    subst hc
    have hnone : hexVal '#' = none := by decide
    rw [hnone] at h
    simp at h

/-- Lowercase hexadecimal digits are not the '#' character. -/
theorem lowerHex_ne_hash (c : Char) (h : isLowerHexDigit c = true) : (c == '#') = false := by
  cases heq : c == '#'
  · rfl
  · have hc : c = '#' := eq_of_beq heq
    subst hc
    have hfalse : isLowerHexDigit '#' = false := by decide
    rw [hfalse] at h
    cases h

/-- Parsing a two-digit slice gives a byte. -/
theorem parseHex_pair (a b : Char) (va vb : Nat)
    (ha : hexVal a = some va) (hb : hexVal b = some vb) :
    parseHex [a, b] = some (va * 16 + vb) ∧ va * 16 + vb < 256 := by
  constructor
  · show (if ([a, b] : List Char).isEmpty then none else parseHexAux [a, b] 0) = _
    simp only [List.isEmpty_cons, if_false, Bool.false_eq_true, ite_false]
    show parseHexAux [a, b] 0 = _
    unfold parseHexAux
    rw [ha]
    unfold parseHexAux
    rw [hb]
    show some ((0 * 16 + va) * 16 + vb) = some (va * 16 + vb)
    norm_num
  · have hva := hexVal_lt a va ha
    have hvb := hexVal_lt b vb hb
    omega

/-- A list of length six is six explicit elements. -/
theorem exists_six {α : Type} (l : List α) (h : l.length = 6) :
    ∃ a b c d e f, l = [a, b, c, d, e, f] := by
  match l with
  | [a, b, c, d, e, f] => exact ⟨a, b, c, d, e, f, rfl⟩
  | [] => simp at h
  | [_] => simp at h
  | [_, _] => simp at h
  | [_, _, _] => simp at h
  | [_, _, _, _] => simp at h
  | [_, _, _, _, _] => simp at h
  | _ :: _ :: _ :: _ :: _ :: _ :: _ :: rest =>
    simp only [List.length_cons] at h
    omega

/-- A list of length two is two explicit elements. -/
theorem exists_two {α : Type} (l : List α) (h : l.length = 2) :
    ∃ a b, l = [a, b] := by
  match l with
  | [a, b] => exact ⟨a, b, rfl⟩
  | [] => simp at h
  | [_] => simp at h
  | _ :: _ :: _ :: rest =>
    simp only [List.length_cons] at h
    omega

/-- The three two-character slices of a triple of two-character lists. -/
theorem slices_of_triple (f1 f2 f3 : List Char)
    (h1 : f1.length = 2) (h2 : f2.length = 2) (h3 : f3.length = 2) :
    pySlice (f1 ++ f2 ++ f3) 0 2 = f1 ∧
    pySlice (f1 ++ f2 ++ f3) 2 4 = f2 ∧
    pySlice (f1 ++ f2 ++ f3) 4 6 = f3 := by
  obtain ⟨a, b, rfl⟩ := exists_two f1 h1
  obtain ⟨c, d, rfl⟩ := exists_two f2 h2
  obtain ⟨e, f, rfl⟩ := exists_two f3 h3
  refine ⟨?_, ?_, ?_⟩ <;> rfl

/-- Valid input colors decompose into three byte channels, and
_adjust_color maps them through the per-channel arithmetic into a
'#'-prefixed 02x rendering. -/
theorem adjust_color_form (s : String) (h : validHexColor s = true) (f : ℚ) :
    ∃ r g b, r < 256 ∧ g < 256 ∧ b < 256 ∧
      channelsOf s = some (r, g, b) ∧
      _adjust_color s f = some (String.mk ('#' :: (format02x (adjustChan r f) ++
        (format02x (adjustChan g f) ++ format02x (adjustChan b f))))) := by
  unfold validHexColor at h
  match hs : s.toList with
  | [] => rw [hs] at h; cases h
  | c0 :: cs =>
    rw [hs] at h
    simp only [Bool.and_eq_true, beq_iff_eq, List.all_eq_true] at h
    obtain ⟨hc0, hlen, hall⟩ := h
    subst hc0
    obtain ⟨c1, c2, c3, c4, c5, c6, rfl⟩ := exists_six cs hlen
    have hdrop : ('#' :: [c1, c2, c3, c4, c5, c6]).dropWhile (· == '#') =
        [c1, c2, c3, c4, c5, c6] := by
      rw [List.dropWhile_cons]
      simp only [beq_self_eq_true, if_true]
      rw [List.dropWhile_cons]
      rw [hexVal_ne_hash c1 (by simp [hall c1 (by simp)])]
      simp
    obtain ⟨v1, hv1⟩ := Option.isSome_iff_exists.mp (hall c1 (by simp))
    obtain ⟨v2, hv2⟩ := Option.isSome_iff_exists.mp (hall c2 (by simp))
    obtain ⟨v3, hv3⟩ := Option.isSome_iff_exists.mp (hall c3 (by simp))
    obtain ⟨v4, hv4⟩ := Option.isSome_iff_exists.mp (hall c4 (by simp))
    obtain ⟨v5, hv5⟩ := Option.isSome_iff_exists.mp (hall c5 (by simp))
    obtain ⟨v6, hv6⟩ := Option.isSome_iff_exists.mp (hall c6 (by simp))
    have hs1 : pySlice [c1, c2, c3, c4, c5, c6] 0 2 = [c1, c2] := rfl
    have hs2 : pySlice [c1, c2, c3, c4, c5, c6] 2 4 = [c3, c4] := rfl
    have hs3 : pySlice [c1, c2, c3, c4, c5, c6] 4 6 = [c5, c6] := rfl
    obtain ⟨hp1, hb1⟩ := parseHex_pair c1 c2 v1 v2 hv1 hv2
    obtain ⟨hp2, hb2⟩ := parseHex_pair c3 c4 v3 v4 hv3 hv4
    obtain ⟨hp3, hb3⟩ := parseHex_pair c5 c6 v5 v6 hv5 hv6
    refine ⟨v1 * 16 + v2, v3 * 16 + v4, v5 * 16 + v6, hb1, hb2, hb3, ?_, ?_⟩
    · unfold channelsOf
      rw [hs, hdrop]
      dsimp only
      rw [hs1, hs2, hs3, hp1, hp2, hp3]
    · unfold _adjust_color
      rw [hs, hdrop]
      dsimp only
      rw [hs1, hs2, hs3, hp1, hp2, hp3]
      simp [List.append_assoc]

/-- Truncation toward zero agrees with floor on nonnegative values. -/
theorem pyInt_nonneg_eq (q : ℚ) (h : 0 ≤ q) : pyInt q = ⌊q⌋ := by
  simp [pyInt, h]

/-- Truncation toward zero is monotone. -/
theorem pyInt_mono {q q' : ℚ} (h : q ≤ q') : pyInt q ≤ pyInt q' := by
  unfold pyInt
  by_cases h1 : 0 ≤ q
  · have h2 : 0 ≤ q' := le_trans h1 h
    simp only [h1, h2, if_true]
    exact Int.floor_mono h
  · by_cases h2 : 0 ≤ q'
    · simp only [h1, h2, if_true, if_false]
      have g1 : (0:ℤ) ≤ ⌊q'⌋ := Int.floor_nonneg.mpr h2
      have g2 : (0:ℤ) ≤ ⌊-q⌋ := Int.floor_nonneg.mpr (by push_neg at h1; linarith)
      omega
    · simp only [h1, h2, if_false]
      have := Int.floor_mono (neg_le_neg h)
      omega

/-- For a byte channel and a nonnegative factor the adjusted channel is
again a byte: nonnegative and at most 255. -/
theorem adjustChan_bounds (c : Nat) (f : ℚ) (hc : c ≤ 255) (hf : 0 ≤ f) :
    0 ≤ adjustChan c f ∧ adjustChan c f ≤ 255 := by
  have hc255 : (c : ℚ) ≤ 255 := by exact_mod_cast hc
  unfold adjustChan
  by_cases h1 : f < 1
  · rw [if_pos h1]
    have hnn : (0:ℚ) ≤ (c : ℚ) * f := mul_nonneg (Nat.cast_nonneg c) hf
    rw [pyInt_nonneg_eq _ hnn]
    constructor
    · exact Int.floor_nonneg.mpr hnn
    · have hle : (c : ℚ) * f ≤ 255 :=
        le_trans (mul_le_of_le_one_right (Nat.cast_nonneg c) (le_of_lt h1)) hc255
      calc ⌊(c : ℚ) * f⌋ ≤ ⌊(255 : ℚ)⌋ := Int.floor_mono hle
        _ = 255 := by norm_num
  · rw [if_neg h1]
    by_cases h2 : 1 < f
    · rw [if_pos h2]
      have hsub : (0:ℚ) ≤ 255 - (c : ℚ) := by linarith
      have hx : (0:ℚ) ≤ (c : ℚ) + (255 - (c : ℚ)) * (f - 1) := by
        have := mul_nonneg hsub (by linarith : (0:ℚ) ≤ f - 1)
        have := Nat.cast_nonneg (α := ℚ) c
        linarith
      have hmin : (0:ℚ) ≤ min ((c : ℚ) + (255 - (c : ℚ)) * (f - 1)) 255 :=
        le_min hx (by norm_num)
      rw [pyInt_nonneg_eq _ hmin]
      constructor
      · exact Int.floor_nonneg.mpr hmin
      · calc ⌊min ((c : ℚ) + (255 - (c : ℚ)) * (f - 1)) 255⌋ ≤ ⌊(255 : ℚ)⌋ :=
            Int.floor_mono (min_le_right _ _)
          _ = 255 := by norm_num
    · rw [if_neg h2]
      exact ⟨Int.natCast_nonneg c, by exact_mod_cast hc⟩

/-- Rendering three byte values through the 02x formatter yields a
well-formed lowercase color that parses back to the same bytes. -/
theorem channels_of_output (x y z : ℤ)
    (hx : 0 ≤ x) (hx2 : x ≤ 255) (hy : 0 ≤ y) (hy2 : y ≤ 255) (hz : 0 ≤ z) (hz2 : z ≤ 255) :
    channelsOf (String.mk ('#' :: (format02x x ++ (format02x y ++ format02x z)))) =
      some (x.toNat, y.toNat, z.toNat) ∧
    isWellFormedColor (String.mk ('#' :: (format02x x ++ (format02x y ++ format02x z)))) =
      true := by
  have hx' : ((x.toNat : ℤ)) = x := Int.toNat_of_nonneg hx
  have hy' : ((y.toNat : ℤ)) = y := Int.toNat_of_nonneg hy
  have hz' : ((z.toNat : ℤ)) = z := Int.toNat_of_nonneg hz
  obtain ⟨hpx, hlx, hax⟩ := roundtrip256 x.toNat (by omega)
  obtain ⟨hpy, hly, hay⟩ := roundtrip256 y.toNat (by omega)
  obtain ⟨hpz, hlz, haz⟩ := roundtrip256 z.toNat (by omega)
  rw [hx'] at hpx hlx hax
  rw [hy'] at hpy hly hay
  rw [hz'] at hpz hlz haz
  have htl : (String.mk ('#' :: (format02x x ++ (format02x y ++ format02x z)))).toList =
      '#' :: (format02x x ++ (format02x y ++ format02x z)) := rfl
  obtain ⟨d1, d2, hd⟩ := exists_two (format02x x) hlx
  have hd1hex : isLowerHexDigit d1 = true := by
    have := hax
    rw [hd] at this
    simp only [List.all_cons, Bool.and_eq_true] at this
    exact this.1
  have hdrop : ('#' :: (format02x x ++ (format02x y ++ format02x z))).dropWhile (· == '#') =
      format02x x ++ (format02x y ++ format02x z) := by
    rw [List.dropWhile_cons]
    simp only [beq_self_eq_true, if_true]
    rw [hd, List.cons_append, List.dropWhile_cons, lowerHex_ne_hash d1 hd1hex]
    simp
  have hsl := slices_of_triple (format02x x) (format02x y) (format02x z) hlx hly hlz
  constructor
  · unfold channelsOf
    rw [htl, hdrop]
    dsimp only
    rw [← List.append_assoc]
    rw [hsl.1, hsl.2.1, hsl.2.2, hpx, hpy, hpz]
  · unfold isWellFormedColor
    rw [htl]
    simp only [beq_self_eq_true, Bool.true_and, Bool.and_eq_true, beq_iff_eq,
      List.all_eq_true]
    constructor
    · simp [List.length_append, hlx, hly, hlz]
    · intro cch hcch
      simp only [List.mem_append] at hcch
      rcases hcch with hm | hm | hm
      · exact (List.all_eq_true.mp hax) cch hm
      · exact (List.all_eq_true.mp hay) cch hm
      · exact (List.all_eq_true.mp haz) cch hm

/-- C7: _adjust_color with brightness factor exactly 1.0 is the identity
on the channels: for every input of the form '#' followed by six hex
digits, the returned color decodes to the same R, G, B values as the
input. -/
theorem adjust_color_factor_one_identity (s : String) (h : validHexColor s = true) :
    ∃ t, _adjust_color s 1 = some t ∧ channelsOf t = channelsOf s ∧
      (channelsOf s).isSome = true := by
  obtain ⟨r, g, b, hr, hg, hb, hch, hadj⟩ := adjust_color_form s h 1
  have e1 : adjustChan r 1 = (r : ℤ) := by simp [adjustChan]
  have e2 : adjustChan g 1 = (g : ℤ) := by simp [adjustChan]
  have e3 : adjustChan b 1 = (b : ℤ) := by simp [adjustChan]
  rw [e1, e2, e3] at hadj
  obtain ⟨hcho, _⟩ := channels_of_output (r : ℤ) (g : ℤ) (b : ℤ)
    (Int.natCast_nonneg r) (by exact_mod_cast Nat.le_of_lt_succ (by omega))
    (Int.natCast_nonneg g) (by exact_mod_cast Nat.le_of_lt_succ (by omega))
    (Int.natCast_nonneg b) (by exact_mod_cast Nat.le_of_lt_succ (by omega))
  refine ⟨_, hadj, ?_, by rw [hch]; rfl⟩
  rw [hcho, hch]
  simp

/-- Witness for C7 at the concrete mixed-case color #1aF2b3. -/
theorem adjust_color_factor_one_identity_witness :
    ∃ t, _adjust_color "#1aF2b3" 1 = some t ∧ channelsOf t = channelsOf "#1aF2b3" ∧
      (channelsOf "#1aF2b3").isSome = true :=
  adjust_color_factor_one_identity "#1aF2b3" (by decide)

/-- C8: per decoded channel (a byte), the _adjust_color arithmetic is
monotone in the brightness factor: below 1 the channel is the floor of
channel * factor, non-decreasing in the factor and never exceeding the
original; above 1 it is non-decreasing in the factor and never exceeds
255. -/
theorem adjust_channel_monotone (c : Nat) (f f' : ℚ) (hc : c ≤ 255) :
    (f ≤ f' → f' < 1 → adjustChan c f ≤ adjustChan c f') ∧
    (0 ≤ f → f < 1 → adjustChan c f = ⌊(c : ℚ) * f⌋ ∧ adjustChan c f ≤ (c : ℤ)) ∧
    (1 < f → f ≤ f' → adjustChan c f ≤ adjustChan c f') ∧
    (1 < f → adjustChan c f ≤ 255) := by
  have hc255 : (c : ℚ) ≤ 255 := by exact_mod_cast hc
  refine ⟨?_, ?_, ?_, ?_⟩
  · intro hle hlt'
    have hlt : f < 1 := lt_of_le_of_lt hle hlt'
    unfold adjustChan
    rw [if_pos hlt, if_pos hlt']
    exact pyInt_mono (mul_le_mul_of_nonneg_left hle (Nat.cast_nonneg c))
  · intro hf0 hlt
    unfold adjustChan
    rw [if_pos hlt]
    have hnn : (0:ℚ) ≤ (c : ℚ) * f := mul_nonneg (Nat.cast_nonneg c) hf0
    refine ⟨pyInt_nonneg_eq _ hnn, ?_⟩
    rw [pyInt_nonneg_eq _ hnn]
    calc ⌊(c : ℚ) * f⌋ ≤ ⌊((c : Nat) : ℚ)⌋ :=
          Int.floor_mono (mul_le_of_le_one_right (Nat.cast_nonneg c) (le_of_lt hlt))
      _ = (c : ℤ) := Int.floor_natCast c
  · intro hgt hle
    have hgt' : 1 < f' := lt_of_lt_of_le hgt hle
    unfold adjustChan
    rw [if_neg (show ¬ (f < 1) from by linarith), if_pos hgt,
      if_neg (show ¬ (f' < 1) from by linarith), if_pos hgt']
    refine pyInt_mono (min_le_min ?_ le_rfl)
    have hsub : (0:ℚ) ≤ 255 - (c : ℚ) := by linarith
    have : (255 - (c : ℚ)) * (f - 1) ≤ (255 - (c : ℚ)) * (f' - 1) :=
      mul_le_mul_of_nonneg_left (by linarith) hsub
    linarith
  · intro hgt
    unfold adjustChan
    rw [if_neg (by linarith), if_pos hgt]
    calc pyInt (min ((c : ℚ) + (255 - (c : ℚ)) * (f - 1)) 255) ≤ pyInt 255 :=
          pyInt_mono (min_le_right _ _)
      _ = 255 := by rw [pyInt_nonneg_eq _ (by norm_num)]; norm_num

/-- Witness for C8 at concrete channel 200 and factors 3/4 <= 7/8 < 1 and
1 < 5/4 <= 3/2. -/
theorem adjust_channel_monotone_witness :
    adjustChan 200 (3/4) ≤ adjustChan 200 (7/8) ∧
    adjustChan 200 (3/4) ≤ (200 : ℤ) ∧
    adjustChan 200 (5/4) ≤ adjustChan 200 (3/2) ∧
    adjustChan 200 (3/2) ≤ 255 :=
  ⟨(adjust_channel_monotone 200 (3/4) (7/8) (by norm_num)).1 (by norm_num) (by norm_num),
   ((adjust_channel_monotone 200 (3/4) (7/8) (by norm_num)).2.1 (by norm_num) (by norm_num)).2,
   (adjust_channel_monotone 200 (5/4) (3/2) (by norm_num)).2.2.1 (by norm_num) (by norm_num),
   (adjust_channel_monotone 200 (3/2) (3/2) (by norm_num)).2.2.2 (by norm_num)⟩

/-- C10: for every '#'-plus-six-hex-digits input and every brightness
factor between 0.5 and 1.5, _adjust_color returns a well-formed color:
'#' followed by exactly six lowercase hex digits whose three decoded
channels are bytes (between 0 and 255). -/
theorem adjust_color_wellformed (s : String) (f : ℚ) (h : validHexColor s = true)
    (hf1 : 1/2 ≤ f) (_hf2 : f ≤ 3/2) :
    ∃ t, _adjust_color s f = some t ∧ isWellFormedColor t = true ∧
      ∃ r g b : Nat, channelsOf t = some (r, g, b) ∧ r ≤ 255 ∧ g ≤ 255 ∧ b ≤ 255 := by
  obtain ⟨r, g, b, hr, hg, hb, _, hadj⟩ := adjust_color_form s h f
  have hf0 : (0:ℚ) ≤ f := le_trans (by norm_num) hf1
  obtain ⟨h1a, h1b⟩ := adjustChan_bounds r f (by omega) hf0
  obtain ⟨h2a, h2b⟩ := adjustChan_bounds g f (by omega) hf0
  obtain ⟨h3a, h3b⟩ := adjustChan_bounds b f (by omega) hf0
  obtain ⟨hcho, hwf⟩ := channels_of_output _ _ _ h1a h1b h2a h2b h3a h3b
  refine ⟨_, hadj, hwf, (adjustChan r f).toNat, (adjustChan g f).toNat,
    (adjustChan b f).toNat, hcho, by omega, by omega, by omega⟩

/-- Witness for C10 at the concrete color #80ff01 and factor 5/4. -/
theorem adjust_color_wellformed_witness :
    ∃ t, _adjust_color "#80ff01" (5/4) = some t ∧ isWellFormedColor t = true ∧
      ∃ r g b : Nat, channelsOf t = some (r, g, b) ∧ r ≤ 255 ∧ g ≤ 255 ∧ b ≤ 255 :=
  adjust_color_wellformed "#80ff01" (5/4) (by decide) (by norm_num) (by norm_num)

end Mcx
